import Mathlib

/-!
# Verified model of the `chash` consistent-hash ring

A shallow embedding of the `hashring` Go package (directory `hash-ring`:
`hash_ring.go`, exercised by `hash_ring_test.go` and `benchmark_test.go`,
and imported by `main.go`).  Strings are modelled as byte lists
(`List Nat`), `uint64` values as `Nat` with explicit `% 2 ^ 64`, and
`int64` values as `Int` together with the two's-complement casts between
them (the Go code stores `int64(hashVal)` in its sorted slice while the
`sync.Map` is keyed by the original `uint64`).  Fallible Go calls are
modelled with `Option`/`Except`.  The repository also contains a stale
copy of the same file under `hash_ring/` (package `consistenthash`) whose
only divergence is loading the map with the raw `int64` key; the live
package converts back with `uint64(nodeHash)` and is what is modelled
here.
-/

/-- Reinterpret a `uint64` value (a `Nat` below `2 ^ 64`) as a Go `int64`,
as performed by the conversion `int64(hashVal)` in the source. -/
def u64ToI64 (h : Nat) : Int :=
  if h < 2 ^ 63 then (h : Int) else (h : Int) - 2 ^ 64

/-- Reinterpret a Go `int64` as a `uint64`, as performed by the conversion
`uint64(nodeHash)` in the source. -/
def i64ToU64 (v : Int) : Nat :=
  (v % 2 ^ 64).toNat

theorem i64ToU64_u64ToI64 {h : Nat} (hh : h < 2 ^ 64) :
    i64ToU64 (u64ToI64 h) = h := by
  simp only [u64ToI64, i64ToU64]
  split <;> omega

theorem u64ToI64_i64ToU64 {v : Int} (h1 : -(2 ^ 63) ≤ v) (h2 : v < 2 ^ 63) :
    u64ToI64 (i64ToU64 v) = v := by
  simp only [u64ToI64, i64ToU64]
  split <;> omega

theorem i64ToU64_lt {v : Int} (h1 : -(2 ^ 63) ≤ v) (h2 : v < 2 ^ 63) :
    i64ToU64 v < 2 ^ 64 := by
  simp only [i64ToU64]
  omega

theorem u64ToI64_range {h : Nat} (hh : h < 2 ^ 64) :
    -(2 ^ 63) ≤ u64ToI64 h ∧ u64ToI64 h < 2 ^ 63 := by
  simp only [u64ToI64]
  split <;> omega

/-! ## The default hash function (Go's `hash/fnv`, `fnv.New64a`)

`fnv.New64a` is the 64-bit FNV-1a hasher from the Go standard library:
the state starts at the offset basis `14695981039346656037`; each written
byte is XORed into the state, which is then multiplied by the prime
`1099511628211`, with `uint64` wraparound. `Write` never fails. -/

def fnvOffset64 : Nat := 14695981039346656037

def fnvPrime64 : Nat := 1099511628211

/-- One `Write` step of Go's `fnv.New64a` on one byte. -/
def fnv1aStep (acc b : Nat) : Nat :=
  ((acc ^^^ b) * fnvPrime64) % 2 ^ 64

/-- `fnv.New64a` followed by `Write(bytes)` and `Sum64()`. -/
def fnv1a (bs : List Nat) : Nat :=
  bs.foldl fnv1aStep fnvOffset64

/-- The spec's description of the default hash ("FNV-1a semantics:
byte-wise accumulate, deterministic across runs"): starting from the
64-bit FNV offset basis, fold each byte in by XOR followed by a
multiplication with the 64-bit FNV prime, kept in the 64-bit range.
Stated as explicit structural recursion to be compared with the
translation `fnv1a` of the library code. -/
def fnv1aSpecFrom (acc : Nat) : List Nat → Nat
  | [] => acc
  | b :: bs => fnv1aSpecFrom (((acc ^^^ b) * fnvPrime64) % 2 ^ 64) bs

def fnv1aSpec (bs : List Nat) : Nat :=
  fnv1aSpecFrom fnvOffset64 bs

theorem fnv1aSpecFrom_eq_foldl (bs : List Nat) :
    ∀ acc, fnv1aSpecFrom acc bs = bs.foldl fnv1aStep acc := by
  induction bs with
  | nil => intro acc; rfl
  | cons b bs ih => intro acc; simp [fnv1aSpecFrom, List.foldl_cons, fnv1aStep, ih]

theorem fnv1a_eq_spec (bs : List Nat) : fnv1a bs = fnv1aSpec bs := by
  simp [fnv1a, fnv1aSpec, fnv1aSpecFrom_eq_foldl]

theorem fnv1aStep_lt (acc b : Nat) : fnv1aStep acc b < 2 ^ 64 := by
  have h : (0:Nat) < 2 ^ 64 := by norm_num
  exact Nat.mod_lt _ h

theorem fnv1a_lt (bs : List Nat) : fnv1a bs < 2 ^ 64 := by
  have key : ∀ acc, acc < 2 ^ 64 → bs.foldl fnv1aStep acc < 2 ^ 64 := by
    induction bs with
    | nil => intro acc hacc; exact hacc
    | cons b bs ih => intro acc hacc; exact ih _ (fnv1aStep_lt acc b)
  exact key _ (by norm_num [fnvOffset64])

/-! ## Errors, configuration, ring state

The four Go error sentinels become a closed inductive type; `fmt.Errorf`
wrapping only adds message context and keeps the `errors.Is` kind, which
is what is modelled. -/

inductive RingError where
  | noConnectedNodes   -- ErrNoConnectedNodes
  | nodeExists         -- ErrNodeExits
  | nodeNotFound       -- ErrNodeNotFound
  | inHashingKey       -- ErrInHashingKey
  deriving DecidableEq, Repr

/-- `hashRingConfig`: the hash function (a pure model of a
`func() hash.Hash64` applied to the written bytes; `none` models a
failing `Write`) and the verbose-log flag. -/
structure hashRingConfig where
  HashFunction : List Nat → Option Nat
  EnableLogs : Bool

/-- `HashRingConfigFn`: an option in the functional-option pattern. -/
def HashRingConfigFn : Type := hashRingConfig → hashRingConfig

def SetHashFunction (f : List Nat → Option Nat) : HashRingConfigFn :=
  fun config => { config with HashFunction := f }

def EnableVerboseLogs (enabled : Bool) : HashRingConfigFn :=
  fun config => { config with EnableLogs := enabled }

/-- `HashRing`: the `sync.Map` (`nodes`, an association list keyed by the
`uint64` hash) and the sorted slice of `int64` keys.  The mutex only
serializes calls and has no sequential content. -/
structure HashRing (ν : Type) where
  config : hashRingConfig
  nodes : List (Nat × ν)
  sortedKeyOfNodes : List Int

/-- The values a `log.Printf` call would record (emission only). -/
inductive LogEvent where
  | addedNode (id : List Nat) (hash : Nat)
  | mappedKey (key : List Nat) (keyHash : Nat) (nodeHash : Int)
  | removedNode (id : List Nat) (hash : Nat)

/-- `HashRingInit`: apply the options to the default configuration
(`fnv.New64a`, logs disabled) and start with empty structures. -/
def HashRingInit (ν : Type) (opts : List HashRingConfigFn) : HashRing ν :=
  let config := opts.foldl (fun c opt => opt c)
    { HashFunction := fun bs => some (fnv1a bs), EnableLogs := false }
  { config := config, nodes := [], sortedKeyOfNodes := [] }

/-- `generateHash`: run the configured hasher over the key's bytes.
`Sum64` returns a `uint64`; the reduction `% 2 ^ 64` makes that explicit. -/
def generateHash (f : List Nat → Option Nat) (key : List Nat) : Option Nat :=
  (f key).map (· % 2 ^ 64)

/-- The leftmost index whose element is `≥ key`, or the length if none:
the documented result of the `sort.Search` call in `binarySearch`
(`sort.Search` returns the smallest index satisfying the predicate, which
on the sorted slice is this first-hit index). -/
def lowerBound {α : Type} [LinearOrder α] : List α → α → Nat
  | [], _ => 0
  | x :: xs, key => if key ≤ x then 0 else lowerBound xs key + 1

/-- `binarySearch`: empty slice yields `ErrNoConnectedNodes`; otherwise
the first index with element `≥ key`, wrapped to index `0` when every
element is smaller. -/
def binarySearch (sortedKeyOfNodes : List Int) (key : Int) :
    Except RingError Nat :=
  if sortedKeyOfNodes.length = 0 then
    .error .noConnectedNodes
  else
    let index := lowerBound sortedKeyOfNodes key
    .ok (if index = sortedKeyOfNodes.length then 0 else index)

/-- `AddNode`: hash the identifier, reject an occupied hash slot
(`ErrNodeExits`), otherwise store the node under its `uint64` hash,
append `int64(hashVal)` to the slice and re-sort it (`slices.Sort`,
modelled by insertion sort — extensionally the unique ascending
reordering). Returns (error, new state, emitted log records). -/
def AddNode {ν : Type} (getIdentifier : ν → List Nat) (ring : HashRing ν)
    (node : ν) : Except RingError Unit × HashRing ν × List LogEvent :=
  match generateHash ring.config.HashFunction (getIdentifier node) with
  | none => (.error .inHashingKey, ring, [])
  | some hashVal =>
    if (List.lookup hashVal ring.nodes).isSome then
      (.error .nodeExists, ring, [])
    else
      let nodes' := ring.nodes ++ [(hashVal, node)]
      let sorted' :=
        (ring.sortedKeyOfNodes ++ [u64ToI64 hashVal]).insertionSort (· ≤ ·)
      (.ok (),
        { ring with nodes := nodes', sortedKeyOfNodes := sorted' },
        if ring.config.EnableLogs then
          [.addedNode (getIdentifier node) hashVal]
        else [])

/-- `GetNode`: hash the key, binary-search the slice, read the slice at
the chosen index, and load the node stored under `uint64(nodeHash)`;
absence of that map entry is the (defensive) `ErrNodeNotFound` branch.
No ring field is assigned, so the state component is `ring` itself. -/
def GetNode {ν : Type} (ring : HashRing ν) (key : List Nat) :
    Except RingError ν × HashRing ν × List LogEvent :=
  match generateHash ring.config.HashFunction key with
  | none => (.error .inHashingKey, ring, [])
  | some hashVal =>
    match binarySearch ring.sortedKeyOfNodes (u64ToI64 hashVal) with
    | .error e => (.error e, ring, [])
    | .ok index =>
      let nodeHash := ring.sortedKeyOfNodes.getD index 0
      match List.lookup (i64ToU64 nodeHash) ring.nodes with
      | some node =>
        (.ok node, ring,
          if ring.config.EnableLogs then [.mappedKey key hashVal nodeHash]
          else [])
      | none => (.error .nodeNotFound, ring, [])

/-- `RemoveNode`: hash the identifier; `LoadAndDelete` removes the map
entry (its absence is `ErrNodeNotFound`), then the slice entry at the
binary-search index is spliced out (`append(take, drop)`). Note the map
deletion happens before the slice search, exactly as in the source. -/
def RemoveNode {ν : Type} (getIdentifier : ν → List Nat) (ring : HashRing ν)
    (node : ν) : Except RingError Unit × HashRing ν × List LogEvent :=
  match generateHash ring.config.HashFunction (getIdentifier node) with
  | none => (.error .inHashingKey, ring, [])
  | some hashVal =>
    if (List.lookup hashVal ring.nodes).isSome then
      let nodes' := ring.nodes.filter (fun p => p.1 != hashVal)
      match binarySearch ring.sortedKeyOfNodes (u64ToI64 hashVal) with
      | .error e => (.error e, { ring with nodes := nodes' }, [])
      | .ok index =>
        let sorted' := ring.sortedKeyOfNodes.take index ++
          ring.sortedKeyOfNodes.drop (index + 1)
        (.ok (),
          { ring with nodes := nodes', sortedKeyOfNodes := sorted' },
          if ring.config.EnableLogs then
            [.removedNode (getIdentifier node) hashVal]
          else [])
    else
      (.error .nodeNotFound, ring, [])

/-! ## Invariants -/

/-- The hash keys currently registered in the mapping. -/
def keysOf {ν : Type} (m : List (Nat × ν)) : List Nat := m.map Prod.fst

/-- Invariant I1: the mapping's key set and the ordered sequence hold the
same hash values (identified across the `uint64`/`int64` reinterpretation
the source performs when writing and reading the slice). -/
def InvI1 {ν : Type} (r : HashRing ν) : Prop :=
  (∀ k ∈ keysOf r.nodes, u64ToI64 k ∈ r.sortedKeyOfNodes) ∧
  (∀ v ∈ r.sortedKeyOfNodes, i64ToU64 v ∈ keysOf r.nodes)

/-- Invariant I2: the ordered sequence is duplicate-free and sorted
ascending. -/
def InvI2 {ν : Type} (r : HashRing ν) : Prop :=
  r.sortedKeyOfNodes.Nodup ∧ r.sortedKeyOfNodes.Sorted (· ≤ ·)

/-- Well-formedness of every reachable ring state: I1, I2, and the
range facts coming from the Go types (`uint64` map keys, `int64` slice
entries). -/
def RingInv {ν : Type} (r : HashRing ν) : Prop :=
  InvI1 r ∧ InvI2 r ∧
  (∀ k ∈ keysOf r.nodes, k < 2 ^ 64) ∧
  (∀ v ∈ r.sortedKeyOfNodes, -(2 ^ 63) ≤ v ∧ v < 2 ^ 63)

theorem ringInv_init (ν : Type) (opts : List HashRingConfigFn) :
    RingInv (HashRingInit ν opts) := by
  refine ⟨⟨?_, ?_⟩, ⟨?_, ?_⟩, ?_, ?_⟩ <;> simp [HashRingInit, keysOf]

/-! ## The clockwise-successor relation

`SuccRel S h t` states that `t` is the element of `S` the spec calls the
"clockwise successor" of `h`: the smallest element `≥ h`, or — when every
element is smaller — the overall smallest element (wrap-around). -/

def SuccRel {α : Type} [LinearOrder α] (S : List α) (h t : α) : Prop :=
  t ∈ S ∧
    ((h ≤ t ∧ ∀ x ∈ S, h ≤ x → t ≤ x) ∨
      ((∀ x ∈ S, x < h) ∧ ∀ x ∈ S, t ≤ x))

theorem succRel_unique {α : Type} [LinearOrder α] {S : List α} {h t₁ t₂ : α}
    (H1 : SuccRel S h t₁) (H2 : SuccRel S h t₂) : t₁ = t₂ := by
  obtain ⟨m1, c1⟩ := H1
  obtain ⟨m2, c2⟩ := H2
  rcases c1 with ⟨le1, min1⟩ | ⟨all1, min1⟩ <;>
    rcases c2 with ⟨le2, min2⟩ | ⟨all2, min2⟩
  · exact le_antisymm (min1 t₂ m2 le2) (min2 t₁ m1 le1)
  · exact absurd le1 (not_le.mpr (all2 t₁ m1))
  · exact absurd le2 (not_le.mpr (all1 t₂ m2))
  · exact le_antisymm (min1 t₂ m2) (min2 t₁ m1)

/-- Removing an element other than the current successor leaves the
successor unchanged. -/
theorem succRel_erase_ne {α : Type} [LinearOrder α] {S S' : List α}
    {h t c : α} (hmem : ∀ x, x ∈ S' ↔ x ∈ S ∧ x ≠ c)
    (hst : SuccRel S h t) (htc : t ≠ c) : SuccRel S' h t := by
  obtain ⟨mt, hc⟩ := hst
  refine ⟨(hmem t).mpr ⟨mt, htc⟩, ?_⟩
  rcases hc with ⟨le1, min1⟩ | ⟨all1, min1⟩
  · exact Or.inl ⟨le1, fun x hx hhx => min1 x ((hmem x).mp hx).1 hhx⟩
  · exact Or.inr ⟨fun x hx => all1 x ((hmem x).mp hx).1,
      fun x hx => min1 x ((hmem x).mp hx).1⟩

/-- When the removed element `c` was the successor of `h`, the new
successor of `h` is the old successor of `c` among the remaining
elements. -/
theorem succRel_chain {α : Type} [LinearOrder α] {S S' : List α}
    {h c u : α} (hmem : ∀ x, x ∈ S' ↔ x ∈ S ∧ x ≠ c)
    (h1 : SuccRel S h c) (h2 : SuccRel S' c u) : SuccRel S' h u := by
  obtain ⟨mc, hc1⟩ := h1
  obtain ⟨mu, hc2⟩ := h2
  refine ⟨mu, ?_⟩
  have hsub : ∀ x, x ∈ S' → x ∈ S := fun x hx => ((hmem x).mp hx).1
  rcases hc1 with ⟨lehc, minh⟩ | ⟨allh, minh⟩
  · rcases hc2 with ⟨lecu, minc⟩ | ⟨allc, minc⟩
    · exact Or.inl ⟨le_trans lehc lecu,
        fun x hx hhx => minc x hx (minh x (hsub x hx) hhx)⟩
    · refine Or.inr ⟨fun x hx => ?_, minc⟩
      by_contra hge
      exact absurd (minh x (hsub x hx) (not_lt.mp hge)) (not_le.mpr (allc x hx))
  · rcases hc2 with ⟨lecu, minc⟩ | ⟨allc, minc⟩
    · exact Or.inr ⟨fun x hx => allh x (hsub x hx),
        fun x hx => minc x hx (minh x (hsub x hx))⟩
    · exact absurd (minh u (hsub u mu)) (not_le.mpr (allc u mu))

/-! ### `lowerBound` facts and the selection lemma -/

theorem lowerBound_le_length {α : Type} [LinearOrder α] (l : List α) (k : α) :
    lowerBound l k ≤ l.length := by
  induction l with
  | nil => simp [lowerBound]
  | cons x xs ih =>
    by_cases hk : k ≤ x <;> simp [lowerBound, hk] <;> omega

theorem lowerBound_before_lt {α : Type} [LinearOrder α] (l : List α) (k : α)
    (d : α) : ∀ i, i < lowerBound l k → l.getD i d < k := by
  induction l with
  | nil => intro i hi; simp [lowerBound] at hi
  | cons x xs ih =>
    intro i hi
    by_cases hk : k ≤ x
    · simp [lowerBound, hk] at hi
    · simp only [lowerBound, if_neg hk] at hi
      cases i with
      | zero => simpa using not_le.mp hk
      | succ j => exact ih j (by omega)

theorem lowerBound_at_ge {α : Type} [LinearOrder α] (l : List α) (k : α)
    (d : α) (h : lowerBound l k < l.length) : k ≤ l.getD (lowerBound l k) d := by
  induction l with
  | nil => simp [lowerBound] at h
  | cons x xs ih =>
    by_cases hk : k ≤ x
    · simpa [lowerBound, hk] using hk
    · simp only [lowerBound, if_neg hk, List.length_cons] at h ⊢
      simpa using ih (by omega)

theorem sorted_getD_mono {α : Type} [LinearOrder α] {l : List α}
    (hs : l.Sorted (· ≤ ·)) {i j : Nat} (hij : i ≤ j) (hj : j < l.length)
    (d : α) : l.getD i d ≤ l.getD j d := by
  have hi : i < l.length := lt_of_le_of_lt hij hj
  rw [List.getD_eq_get l d hi, List.getD_eq_get l d hj]
  exact hs.rel_get_of_le (by exact hij)

theorem getD_mem {α : Type} {l : List α} {i : Nat} (h : i < l.length)
    (d : α) : l.getD i d ∈ l := by
  rw [List.getD_eq_get l d h]
  exact l.get_mem i h

theorem mem_getD {α : Type} {l : List α} {w : α} (hw : w ∈ l) (d : α) :
    ∃ i, i < l.length ∧ l.getD i d = w := by
  obtain ⟨⟨i, hi⟩, hg⟩ := List.mem_iff_get.mp hw
  exact ⟨i, hi, by rw [List.getD_eq_get l d hi]; exact hg⟩

/-- The index selected by `binarySearch` (first element `≥ key`, wrapped
to `0`) realizes the clockwise-successor relation on a sorted slice. -/
theorem succRel_select {α : Type} [LinearOrder α] (d : α) {l : List α}
    (hs : l.Sorted (· ≤ ·)) (hne : l ≠ []) (k : α) :
    SuccRel l k
      (l.getD (if lowerBound l k = l.length then 0 else lowerBound l k) d) := by
  have hlen : 0 < l.length := List.length_pos.mpr hne
  by_cases hwrap : lowerBound l k = l.length
  · -- every element is `< k`: wrap to the head, the minimum
    simp only [hwrap, if_pos rfl]
    refine ⟨getD_mem hlen d, Or.inr ⟨?_, ?_⟩⟩
    · intro x hx
      obtain ⟨i, hi, hg⟩ := mem_getD hx d
      rw [← hg]
      exact lowerBound_before_lt l k d i (hwrap ▸ hi)
    · intro x hx
      obtain ⟨i, hi, hg⟩ := mem_getD hx d
      rw [← hg]
      exact sorted_getD_mono hs (Nat.zero_le i) hi d
  · -- a first element `≥ k` exists and is minimal among those
    have hlb : lowerBound l k < l.length :=
      lt_of_le_of_ne (lowerBound_le_length l k) hwrap
    simp only [if_neg hwrap]
    refine ⟨getD_mem hlb d, Or.inl ⟨lowerBound_at_ge l k d hlb, ?_⟩⟩
    intro x hx hkx
    obtain ⟨i, hi, hg⟩ := mem_getD hx d
    rcases lt_or_le i (lowerBound l k) with hlt | hge
    · exact absurd (hg ▸ lowerBound_before_lt l k d i hlt) (not_lt.mpr hkx)
    · rw [← hg]
      exact sorted_getD_mono hs hge hi d

/-- Existence of the clockwise successor in any nonempty list. -/
theorem succRel_exists {α : Type} [LinearOrder α]
    {S : List α} (hne : S ≠ []) (h : α) : ∃ t, SuccRel S h t := by
  have hperm : List.Perm (S.insertionSort (· ≤ ·)) S := List.perm_insertionSort _ S
  have hsne : S.insertionSort (· ≤ ·) ≠ [] := by
    intro hcontra
    rw [hcontra] at hperm
    exact hne hperm.symm.eq_nil
  obtain ⟨x, hx⟩ := List.exists_mem_of_ne_nil _ hsne
  have hsel := succRel_select x (List.sorted_insertionSort (· ≤ ·) S) hsne h
  obtain ⟨mt, hc⟩ := hsel
  refine ⟨_, hperm.mem_iff.mp mt, ?_⟩
  rcases hc with ⟨le1, min1⟩ | ⟨all1, min1⟩
  · exact Or.inl ⟨le1, fun y hy hhy => min1 y (hperm.mem_iff.mpr hy) hhy⟩
  · exact Or.inr ⟨fun y hy => all1 y (hperm.mem_iff.mpr hy),
      fun y hy => min1 y (hperm.mem_iff.mpr hy)⟩

/-! ### From the signed (`int64`) order to the unsigned (`uint64`) order

The slice is sorted and searched in Go `int64` order, i.e. on the
reinterpretations `u64ToI64 h`.  That order is a rotation of the
`uint64` circular order (high half first, then low half), and the
clockwise successor is invariant under rotating key and ring together:
the following lemmas make this precise. -/

theorem u64ToI64_le_low_low {a b : Nat} (ha : a < 2 ^ 63) (hb : b < 2 ^ 63) :
    u64ToI64 a ≤ u64ToI64 b ↔ a ≤ b := by
  simp only [u64ToI64, if_pos ha, if_pos hb]
  omega

theorem u64ToI64_le_high_high {a b : Nat} (ha : 2 ^ 63 ≤ a) (hb : 2 ^ 63 ≤ b) :
    u64ToI64 a ≤ u64ToI64 b ↔ a ≤ b := by
  have ha' : ¬a < 2 ^ 63 := by omega
  have hb' : ¬b < 2 ^ 63 := by omega
  simp only [u64ToI64, if_neg ha', if_neg hb']
  omega

theorem u64ToI64_high_lt_low {a b : Nat} (ha : 2 ^ 63 ≤ a) (hau : a < 2 ^ 64)
    (hb : b < 2 ^ 63) : u64ToI64 a < u64ToI64 b := by
  have ha' : ¬a < 2 ^ 63 := by omega
  simp only [u64ToI64, if_neg ha', if_pos hb]
  omega

/-- Transfer: if `t` is the successor of `h` in the signed (`int64`)
linear order over `S`, then `t` is the successor of `h` in the unsigned
(`uint64`) linear order over `S`. -/
theorem succRel_unsigned {S : List Nat} (hSb : ∀ x ∈ S, x < 2 ^ 64)
    {h t : Nat} (hh : h < 2 ^ 64) (htS : t ∈ S)
    (hc : (u64ToI64 h ≤ u64ToI64 t ∧
            ∀ x ∈ S, u64ToI64 h ≤ u64ToI64 x → u64ToI64 t ≤ u64ToI64 x) ∨
          ((∀ x ∈ S, u64ToI64 x < u64ToI64 h) ∧
            ∀ x ∈ S, u64ToI64 t ≤ u64ToI64 x)) :
    SuccRel S h t := by
  have htb : t < 2 ^ 64 := hSb t htS
  refine ⟨htS, ?_⟩
  rcases hc with ⟨hkt, hmin⟩ | ⟨hall, hmin⟩
  · by_cases hhh : h < 2 ^ 63
    · by_cases htt : t < 2 ^ 63
      · -- h and t in the low half: the signed successor clause transfers
        left
        refine ⟨(u64ToI64_le_low_low hhh htt).mp hkt, ?_⟩
        intro x hx hhx
        by_cases hxx : x < 2 ^ 63
        · exact (u64ToI64_le_low_low htt hxx).mp
            (hmin x hx ((u64ToI64_le_low_low hhh hxx).mpr hhx))
        · omega
      · exact absurd hkt
          (not_le.mpr (u64ToI64_high_lt_low (by omega) htb hhh))
    · by_cases htt : t < 2 ^ 63
      · -- h high, t low: in unsigned order this is the wrap-around case
        right
        constructor
        · intro x hx
          by_contra hge
          push_neg at hge
          have hxh : 2 ^ 63 ≤ x := by omega
          exact absurd (hmin x hx ((u64ToI64_le_high_high (by omega) hxh).mpr hge))
            (not_le.mpr (u64ToI64_high_lt_low hxh (hSb x hx) htt))
        · intro x hx
          by_cases hxx : x < 2 ^ 63
          · exact (u64ToI64_le_low_low htt hxx).mp (hmin x hx
              (le_of_lt (u64ToI64_high_lt_low (by omega) hh hxx)))
          · omega
      · -- h and t in the high half
        left
        refine ⟨(u64ToI64_le_high_high (by omega) (by omega)).mp hkt, ?_⟩
        intro x hx hhx
        have hxh : 2 ^ 63 ≤ x := by omega
        exact (u64ToI64_le_high_high (by omega) hxh).mp
          (hmin x hx ((u64ToI64_le_high_high (by omega) hxh).mpr hhx))
  · by_cases hhh : h < 2 ^ 63
    · by_cases hex : ∃ x ∈ S, 2 ^ 63 ≤ x
      · -- signed wrap, h low, with a high element: the signed minimum is
        -- the smallest high element, the unsigned successor of h
        obtain ⟨x0, hx0S, hx0⟩ := hex
        have hth : 2 ^ 63 ≤ t := by
          by_contra htl
          push_neg at htl
          exact absurd (hmin x0 hx0S)
            (not_le.mpr (u64ToI64_high_lt_low hx0 (hSb x0 hx0S) htl))
        left
        refine ⟨by omega, ?_⟩
        intro x hx hhx
        have hxh : 2 ^ 63 ≤ x := by
          by_contra hxl
          push_neg at hxl
          have h1 := hall x hx
          simp only [u64ToI64, if_pos hxl, if_pos hhh] at h1
          omega
        exact (u64ToI64_le_high_high hth hxh).mp (hmin x hx)
      · -- signed wrap, h low, all elements low: unsigned wrap as well
        push_neg at hex
        right
        refine ⟨fun x hx => ?_, fun x hx => ?_⟩
        · have h1 := hall x hx
          simp only [u64ToI64, if_pos (hex x hx), if_pos hhh] at h1
          omega
        · exact (u64ToI64_le_low_low (hex t htS) (hex x hx)).mp (hmin x hx)
    · -- signed wrap, h high: every element is high and below h
      have hkey : ∀ x ∈ S, 2 ^ 63 ≤ x ∧ x < h := by
        intro x hx
        have h1 := hall x hx
        by_cases hxx : x < 2 ^ 63
        · exact absurd h1
            (not_lt.mpr (le_of_lt (u64ToI64_high_lt_low (by omega) hh hxx)))
        · refine ⟨by omega, ?_⟩
          by_contra hge
          push_neg at hge
          exact absurd ((u64ToI64_le_high_high (by omega) (by omega)).mpr hge)
            (not_le.mpr h1)
      right
      refine ⟨fun x hx => (hkey x hx).2, fun x hx => ?_⟩
      exact (u64ToI64_le_high_high (hkey t htS).1 (hkey x hx).1).mp (hmin x hx)

/-! ### Association-list (`sync.Map`) facts -/

theorem lookup_isSome_iff_mem_keys {ν : Type} {m : List (Nat × ν)} {k : Nat} :
    (List.lookup k m).isSome ↔ k ∈ keysOf m := by
  induction m with
  | nil => simp [keysOf]
  | cons p m ih =>
    obtain ⟨a, v⟩ := p
    by_cases hk : k = a
    · simp [List.lookup, keysOf, hk]
    · have : (k == a) = false := beq_false_of_ne hk
      simp [List.lookup, keysOf, this, ih, hk]

theorem lookup_eq_some_of_mem_keys {ν : Type} {m : List (Nat × ν)} {k : Nat}
    (h : k ∈ keysOf m) : ∃ v, List.lookup k m = some v := by
  have := lookup_isSome_iff_mem_keys.mpr h
  exact Option.isSome_iff_exists.mp this

theorem keysOf_filter {ν : Type} (m : List (Nat × ν)) (h : Nat) :
    keysOf (m.filter (fun p => p.1 != h)) = (keysOf m).filter (fun k => k != h) := by
  induction m with
  | nil => rfl
  | cons p m ih =>
    simp only [keysOf, List.filter_cons, List.map_cons] at ih ⊢
    by_cases hc : (p.1 != h) = true
    · simp [hc, ih]
    · simp only [Bool.not_eq_true] at hc
      simp [hc, ih]

theorem mem_keys_filter {ν : Type} {m : List (Nat × ν)} {x h : Nat} :
    x ∈ keysOf (m.filter (fun p => p.1 != h)) ↔ x ∈ keysOf m ∧ x ≠ h := by
  rw [keysOf_filter]
  simp [List.mem_filter, bne_iff_ne]

theorem lookup_filter_ne {ν : Type} {m : List (Nat × ν)} {t h : Nat}
    (hth : t ≠ h) :
    List.lookup t (m.filter (fun p => p.1 != h)) = List.lookup t m := by
  induction m with
  | nil => simp
  | cons p m ih =>
    obtain ⟨a, v⟩ := p
    by_cases ha : a = h
    · subst ha
      have : (t == a) = false := beq_false_of_ne hth
      simp [List.filter, List.lookup, this, ih]
    · have h1 : (a != h) = true := bne_iff_ne.mpr ha
      by_cases hta : t = a
      · subst hta
        simp [List.filter, h1, List.lookup]
      · have h2 : (t == a) = false := beq_false_of_ne hta
        simp [List.filter, h1, List.lookup, h2, ih]

/-- The slice splice `append(sorted[:index], sorted[index+1:]...)` removes
exactly the (unique) occurrence of the value sitting at `index`. -/
theorem take_drop_succ_eq_erase {α : Type} [DecidableEq α] (d : α) :
    ∀ (l : List α) (i : Nat), i < l.length → ∀ c, l.getD i d = c →
    (∀ j, j < i → l.getD j d ≠ c) →
    l.take i ++ l.drop (i + 1) = l.erase c := by
  intro l
  induction l with
  | nil => intro i hi; simp at hi
  | cons x xs ih =>
    intro i hi c hc hbefore
    cases i with
    | zero =>
      have hx : x = c := by simpa [List.getD] using hc
      simp [List.take, List.drop, List.erase_cons, hx]
    | succ j =>
      have hx : x ≠ c := by
        have := hbefore 0 (Nat.succ_pos j)
        simpa [List.getD] using this
      have hxc : (x == c) = false := beq_false_of_ne hx
      simp only [List.take, List.drop, List.erase_cons, hxc]
      simp only [List.length_cons, Nat.succ_lt_succ_iff] at hi
      have := ih j hi c (by simpa [List.getD] using hc)
        (fun m hm => by simpa [List.getD] using hbefore (m + 1) (by omega))
      simp [this]

/-! ### Operation characterizations and invariant preservation -/

theorem generateHash_lt {f : List Nat → Option Nat} {k : List Nat} {h : Nat}
    (hg : generateHash f k = some h) : h < 2 ^ 64 := by
  simp only [generateHash, Option.map_eq_some'] at hg
  obtain ⟨w, hw, rfl⟩ := hg
  exact Nat.mod_lt _ (by norm_num)

theorem addNode_error_state {ν : Type} (getIdentifier : ν → List Nat)
    (r : HashRing ν) (n : ν) {e : RingError}
    (he : (AddNode getIdentifier r n).1 = .error e) :
    (AddNode getIdentifier r n).2.1 = r := by
  cases hg : generateHash r.config.HashFunction (getIdentifier n) with
  | none => simp [AddNode, hg]
  | some hashVal =>
    cases hl : (List.lookup hashVal r.nodes).isSome with
    | true => simp [AddNode, hg, hl]
    | false => simp [AddNode, hg, hl] at he

theorem ringInv_addNode {ν : Type} (getIdentifier : ν → List Nat)
    {r : HashRing ν} (hinv : RingInv r) (n : ν) :
    RingInv (AddNode getIdentifier r n).2.1 := by
  obtain ⟨⟨hi1f, hi1b⟩, ⟨hnd, hsort⟩, hkb, hvb⟩ := hinv
  cases hg : generateHash r.config.HashFunction (getIdentifier n) with
  | none =>
    simpa [AddNode, hg] using ⟨⟨hi1f, hi1b⟩, ⟨hnd, hsort⟩, hkb, hvb⟩
  | some hashVal =>
    cases hl : (List.lookup hashVal r.nodes).isSome with
    | true =>
      simpa [AddNode, hg, hl] using ⟨⟨hi1f, hi1b⟩, ⟨hnd, hsort⟩, hkb, hvb⟩
    | false =>
      have hhb : hashVal < 2 ^ 64 := generateHash_lt hg
      have hnotmem : hashVal ∉ keysOf r.nodes := by
        intro hmem
        have := lookup_isSome_iff_mem_keys.mpr hmem
        rw [hl] at this
        exact Bool.false_ne_true this
      have hcast_notmem : u64ToI64 hashVal ∉ r.sortedKeyOfNodes := by
        intro hmem
        have h1 := hi1b _ hmem
        rw [i64ToU64_u64ToI64 hhb] at h1
        exact hnotmem h1
      have hperm : List.Perm
          ((r.sortedKeyOfNodes ++ [u64ToI64 hashVal]).insertionSort (· ≤ ·))
          (r.sortedKeyOfNodes ++ [u64ToI64 hashVal]) :=
        List.perm_insertionSort _ _
      simp only [AddNode, hg, hl, Bool.false_eq_true, if_false]
      refine ⟨⟨?_, ?_⟩, ⟨?_, ?_⟩, ?_, ?_⟩
      · intro k hk
        simp only [keysOf, List.map_append, List.mem_append] at hk
        rw [List.mem_insertionSort]
        rcases hk with hk | hk
        · exact List.mem_append_left _ (hi1f k hk)
        · simp only [List.map_cons, List.map_nil, List.mem_singleton] at hk
          subst hk
          exact List.mem_append_right _ (by simp)
      · intro v hv
        rw [List.mem_insertionSort] at hv
        simp only [keysOf, List.map_append, List.mem_append]
        rcases List.mem_append.mp hv with hv | hv
        · exact Or.inl (hi1b v hv)
        · rw [List.mem_singleton] at hv
          subst hv
          rw [i64ToU64_u64ToI64 hhb]
          simp
      · refine hperm.nodup_iff.mpr ?_
        rw [List.nodup_append]
        exact ⟨hnd, List.nodup_singleton _,
          fun a ha hb => by rw [List.mem_singleton] at hb; subst hb
                            exact hcast_notmem ha⟩
      · exact List.sorted_insertionSort _ _
      · intro k hk
        simp only [keysOf, List.map_append, List.mem_append] at hk
        rcases hk with hk | hk
        · exact hkb k hk
        · simp only [List.map_cons, List.map_nil, List.mem_singleton] at hk
          subst hk
          exact hhb
      · intro v hv
        rw [List.mem_insertionSort] at hv
        rcases List.mem_append.mp hv with hv | hv
        · exact hvb v hv
        · rw [List.mem_singleton] at hv
          subst hv
          exact u64ToI64_range hhb

/-- On a well-formed ring, a successful removal deletes exactly the map
entry and the (unique) slice entry of the removed node's hash. -/
theorem removeNode_ok_spec {ν : Type} (getIdentifier : ν → List Nat)
    {r r' : HashRing ν} {x : ν} {lg : List LogEvent}
    (hinv : RingInv r)
    (hrem : RemoveNode getIdentifier r x = (.ok (), r', lg)) :
    ∃ hashVal,
      generateHash r.config.HashFunction (getIdentifier x) = some hashVal ∧
      hashVal ∈ keysOf r.nodes ∧
      r'.config = r.config ∧
      r'.nodes = r.nodes.filter (fun p => p.1 != hashVal) ∧
      r'.sortedKeyOfNodes = r.sortedKeyOfNodes.erase (u64ToI64 hashVal) := by
  obtain ⟨⟨hi1f, hi1b⟩, ⟨hnd, hsort⟩, hkb, hvb⟩ := hinv
  cases hg : generateHash r.config.HashFunction (getIdentifier x) with
  | none => simp [RemoveNode, hg] at hrem
  | some hashVal =>
    cases hl : (List.lookup hashVal r.nodes).isSome with
    | false => simp [RemoveNode, hg, hl] at hrem
    | true =>
      have hhb := generateHash_lt hg
      have hmem : hashVal ∈ keysOf r.nodes :=
        lookup_isSome_iff_mem_keys.mp (by rw [hl])
      have hcast : u64ToI64 hashVal ∈ r.sortedKeyOfNodes := hi1f _ hmem
      have hlen : r.sortedKeyOfNodes.length ≠ 0 := by
        intro h0
        rw [List.length_eq_zero] at h0
        rw [h0] at hcast
        simp at hcast
      obtain ⟨p, hp, hpg⟩ := mem_getD hcast (0 : Int)
      have hjp : lowerBound r.sortedKeyOfNodes (u64ToI64 hashVal) ≤ p := by
        by_contra hlt
        push_neg at hlt
        exact absurd hpg
          (ne_of_lt (lowerBound_before_lt r.sortedKeyOfNodes (u64ToI64 hashVal) 0 p hlt))
      have hjlen : lowerBound r.sortedKeyOfNodes (u64ToI64 hashVal) <
          r.sortedKeyOfNodes.length := lt_of_le_of_lt hjp hp
      have hjne : lowerBound r.sortedKeyOfNodes (u64ToI64 hashVal) ≠
          r.sortedKeyOfNodes.length := ne_of_lt hjlen
      have hgetj : r.sortedKeyOfNodes.getD
          (lowerBound r.sortedKeyOfNodes (u64ToI64 hashVal)) 0 = u64ToI64 hashVal := by
        have h1 := lowerBound_at_ge r.sortedKeyOfNodes (u64ToI64 hashVal) 0 hjlen
        have h2 := sorted_getD_mono hsort hjp hp (0 : Int)
        rw [hpg] at h2
        exact le_antisymm h2 h1
      have herase : r.sortedKeyOfNodes.take
            (lowerBound r.sortedKeyOfNodes (u64ToI64 hashVal)) ++
          r.sortedKeyOfNodes.drop
            (lowerBound r.sortedKeyOfNodes (u64ToI64 hashVal) + 1) =
          r.sortedKeyOfNodes.erase (u64ToI64 hashVal) :=
        take_drop_succ_eq_erase 0 r.sortedKeyOfNodes _ hjlen _ hgetj
          (fun m hm => ne_of_lt
            (lowerBound_before_lt r.sortedKeyOfNodes (u64ToI64 hashVal) 0 m hm))
      have hbs : binarySearch r.sortedKeyOfNodes (u64ToI64 hashVal) =
          .ok (lowerBound r.sortedKeyOfNodes (u64ToI64 hashVal)) := by
        simp [binarySearch, hlen, hjne]
      simp only [RemoveNode, hg, hl, if_true, hbs] at hrem
      have hstate := congrArg (fun t => t.2.1) hrem
      simp only at hstate
      exact ⟨hashVal, rfl, hmem, by rw [← hstate], by rw [← hstate],
        by rw [← hstate]; exact herase⟩

/-- On a well-formed ring a failing `RemoveNode` leaves the state intact:
the only error exits are the hash failure and the missing-key check, both
of which occur before any mutation (the post-deletion `binarySearch`
error exit is unreachable because the deleted key's hash is in the
slice). -/
theorem removeNode_error_state {ν : Type} (getIdentifier : ν → List Nat)
    {r : HashRing ν} (hinv : RingInv r) (x : ν) {e : RingError}
    (he : (RemoveNode getIdentifier r x).1 = .error e) :
    (RemoveNode getIdentifier r x).2.1 = r := by
  obtain ⟨⟨hi1f, hi1b⟩, -, -, -⟩ := hinv
  cases hg : generateHash r.config.HashFunction (getIdentifier x) with
  | none => simp [RemoveNode, hg]
  | some hashVal =>
    cases hl : (List.lookup hashVal r.nodes).isSome with
    | false => simp [RemoveNode, hg, hl]
    | true =>
      have hmem : hashVal ∈ keysOf r.nodes :=
        lookup_isSome_iff_mem_keys.mp (by rw [hl])
      have hcast : u64ToI64 hashVal ∈ r.sortedKeyOfNodes := hi1f _ hmem
      have hlen : r.sortedKeyOfNodes.length ≠ 0 := by
        intro h0
        rw [List.length_eq_zero] at h0
        rw [h0] at hcast
        simp at hcast
      simp [RemoveNode, hg, hl, binarySearch, hlen] at he

theorem ringInv_removeNode {ν : Type} (getIdentifier : ν → List Nat)
    {r : HashRing ν} (hinv : RingInv r) (x : ν) :
    RingInv (RemoveNode getIdentifier r x).2.1 := by
  rcases hres : RemoveNode getIdentifier r x with ⟨res, r', lg⟩
  match res with
  | .error e =>
    have hst : (RemoveNode getIdentifier r x).2.1 = r :=
      removeNode_error_state getIdentifier hinv x (by rw [hres])
    rw [hres] at hst
    simp only at hst ⊢
    rwa [hst]
  | .ok () =>
    obtain ⟨hashVal, hg, hmem, hcfg, hnodes, hslice⟩ :=
      removeNode_ok_spec getIdentifier hinv hres
    obtain ⟨⟨hi1f, hi1b⟩, ⟨hnd, hsort⟩, hkb, hvb⟩ := hinv
    have hhb : hashVal < 2 ^ 64 := generateHash_lt hg
    refine ⟨⟨?_, ?_⟩, ⟨?_, ?_⟩, ?_, ?_⟩
    · intro k hk
      rw [hnodes] at hk
      obtain ⟨hk1, hk2⟩ := mem_keys_filter.mp hk
      rw [hslice]
      have hne : u64ToI64 k ≠ u64ToI64 hashVal := by
        intro hcontra
        have := congrArg i64ToU64 hcontra
        rw [i64ToU64_u64ToI64 (hkb k hk1), i64ToU64_u64ToI64 hhb] at this
        exact hk2 this
      exact (List.mem_erase_of_ne hne).mpr (hi1f k hk1)
    · intro v hv
      rw [hslice] at hv
      obtain ⟨hv2, hv1⟩ := (List.Nodup.mem_erase_iff hnd).mp hv
      rw [hnodes]
      have hne : i64ToU64 v ≠ hashVal := by
        intro hcontra
        have := congrArg u64ToI64 hcontra
        rw [u64ToI64_i64ToU64 (hvb v hv1).1 (hvb v hv1).2] at this
        exact hv2 this
      exact mem_keys_filter.mpr ⟨hi1b v hv1, hne⟩
    · rw [hslice]
      exact (List.erase_sublist _ _).nodup hnd
    · rw [hslice]
      exact List.Pairwise.sublist (List.erase_sublist _ _) hsort
    · intro k hk
      rw [hnodes] at hk
      exact hkb k (mem_keys_filter.mp hk).1
    · intro v hv
      rw [hslice] at hv
      exact hvb v (List.mem_of_mem_erase hv)

/-- `GetNode` mutates nothing: the returned state is the input ring. -/
theorem getNode_state_eq {ν : Type} (r : HashRing ν) (key : List Nat) :
    (GetNode r key).2.1 = r := by
  cases hg : generateHash r.config.HashFunction key with
  | none => simp only [GetNode, hg]
  | some hashVal =>
    cases hbs : binarySearch r.sortedKeyOfNodes (u64ToI64 hashVal) with
    | error e => simp only [GetNode, hg, hbs]
    | ok index =>
      cases hlk : List.lookup (i64ToU64 (r.sortedKeyOfNodes.getD index 0)) r.nodes with
      | none => simp only [GetNode, hg, hbs, hlk]
      | some node => simp only [GetNode, hg, hbs, hlk]

/-- On a well-formed nonempty ring, `GetNode` returns (without error) the
node stored at the clockwise successor of the key's hash. -/
theorem getNode_ok {ν : Type} {r : HashRing ν} (hinv : RingInv r)
    (hne : r.sortedKeyOfNodes ≠ []) {key : List Nat} {h : Nat}
    (hg : generateHash r.config.HashFunction key = some h) :
    ∃ t node, SuccRel (keysOf r.nodes) h t ∧
      List.lookup t r.nodes = some node ∧
      (GetNode r key).1 = .ok node := by
  obtain ⟨⟨hi1f, hi1b⟩, ⟨hnd, hsort⟩, hkb, hvb⟩ := hinv
  have hhb : h < 2 ^ 64 := generateHash_lt hg
  have hlen : r.sortedKeyOfNodes.length ≠ 0 := fun h0 =>
    hne (List.length_eq_zero.mp h0)
  obtain ⟨hvmem, hcase⟩ := succRel_select (0 : Int) hsort hne (u64ToI64 h)
  generalize hveq : r.sortedKeyOfNodes.getD
      (if lowerBound r.sortedKeyOfNodes (u64ToI64 h) = r.sortedKeyOfNodes.length
       then 0 else lowerBound r.sortedKeyOfNodes (u64ToI64 h)) 0 = v at hvmem hcase
  have hvrange := hvb v hvmem
  have hIt : u64ToI64 (i64ToU64 v) = v := u64ToI64_i64ToU64 hvrange.1 hvrange.2
  have htS : i64ToU64 v ∈ keysOf r.nodes := hi1b v hvmem
  have hsucc : SuccRel (keysOf r.nodes) h (i64ToU64 v) := by
    apply succRel_unsigned hkb hhb htS
    rcases hcase with ⟨hle, hmin⟩ | ⟨hall, hmin⟩
    · left
      refine ⟨by rwa [hIt], ?_⟩
      intro x hx hhx
      rw [hIt]
      exact hmin (u64ToI64 x) (hi1f x hx) hhx
    · right
      refine ⟨fun x hx => hall (u64ToI64 x) (hi1f x hx), ?_⟩
      intro x hx
      rw [hIt]
      exact hmin (u64ToI64 x) (hi1f x hx)
  obtain ⟨node, hnode⟩ := lookup_eq_some_of_mem_keys htS
  have hbs : binarySearch r.sortedKeyOfNodes (u64ToI64 h) =
      .ok (if lowerBound r.sortedKeyOfNodes (u64ToI64 h) = r.sortedKeyOfNodes.length
           then 0 else lowerBound r.sortedKeyOfNodes (u64ToI64 h)) := by
    simp [binarySearch, hlen]
  refine ⟨i64ToU64 v, node, hsucc, hnode, ?_⟩
  simp only [GetNode, hg, hbs, hveq, hnode]

theorem binarySearch_ok_lt {l : List Int} {key : Int} {idx : Nat}
    (h : binarySearch l key = .ok idx) : idx < l.length := by
  simp only [binarySearch] at h
  split at h
  · exact absurd h (by simp)
  · rename_i hlen
    have hidx : (if lowerBound l key = l.length then 0 else lowerBound l key) = idx := by
      have := Except.ok.inj h
      exact this
    by_cases hw : lowerBound l key = l.length
    · rw [if_pos hw] at hidx
      omega
    · rw [if_neg hw] at hidx
      have := lowerBound_le_length l key
      omega

theorem binarySearch_error {l : List Int} {key : Int} {e : RingError}
    (h : binarySearch l key = .error e) :
    e = .noConnectedNodes ∧ l = [] := by
  simp only [binarySearch] at h
  split at h
  · rename_i hlen
    exact ⟨(Except.error.inj h).symm, List.length_eq_zero.mp hlen⟩
  · exact absurd h (by simp)

/-! ## Claims -/

/-- Claim C1: on every ring with at least one registered node, `GetNode`
selects the node stored at the smallest registered 64-bit hash `≥` the
key's hash, wrapping around to the node with the overall smallest
registered hash when every registered hash is below the key's hash, and
returns that node rather than an error. -/
theorem getNode_clockwise_successor {ν : Type} {r : HashRing ν}
    (hinv : RingInv r) (hne : r.sortedKeyOfNodes ≠ [])
    {key : List Nat} {h : Nat}
    (hg : generateHash r.config.HashFunction key = some h) :
    ∃ t node,
      t ∈ keysOf r.nodes ∧
      ((h ≤ t ∧ ∀ x ∈ keysOf r.nodes, h ≤ x → t ≤ x) ∨
        ((∀ x ∈ keysOf r.nodes, x < h) ∧ ∀ x ∈ keysOf r.nodes, t ≤ x)) ∧
      List.lookup t r.nodes = some node ∧
      (GetNode r key).1 = Except.ok node := by
  obtain ⟨t, node, hsucc, hl, hres⟩ := getNode_ok hinv hne hg
  exact ⟨t, node, hsucc.1, hsucc.2, hl, hres⟩

/-- Claim C2: under invariant I1 the map lookup `GetNode` performs at the
hash selected by the ordered search always succeeds and its node is
returned; the `NodeNotFound` branch is unreachable. -/
theorem getNode_lookup_never_misses {ν : Type} {r : HashRing ν}
    (hI1 : InvI1 r) :
    (∀ key, (GetNode r key).1 ≠ Except.error RingError.nodeNotFound) ∧
    (∀ key hashVal index,
      generateHash r.config.HashFunction key = some hashVal →
      binarySearch r.sortedKeyOfNodes (u64ToI64 hashVal) = .ok index →
      ∃ node,
        List.lookup (i64ToU64 (r.sortedKeyOfNodes.getD index 0)) r.nodes =
          some node ∧
        (GetNode r key).1 = Except.ok node) := by
  obtain ⟨hi1f, hi1b⟩ := hI1
  have main : ∀ key hashVal index,
      generateHash r.config.HashFunction key = some hashVal →
      binarySearch r.sortedKeyOfNodes (u64ToI64 hashVal) = .ok index →
      ∃ node,
        List.lookup (i64ToU64 (r.sortedKeyOfNodes.getD index 0)) r.nodes =
          some node ∧
        (GetNode r key).1 = Except.ok node := by
    intro key hashVal index hg hbs
    have hlt : index < r.sortedKeyOfNodes.length := binarySearch_ok_lt hbs
    have hmem := getD_mem hlt (0 : Int)
    obtain ⟨node, hnode⟩ := lookup_eq_some_of_mem_keys (hi1b _ hmem)
    exact ⟨node, hnode, by simp only [GetNode, hg, hbs, hnode]⟩
  refine ⟨?_, main⟩
  intro key
  cases hg : generateHash r.config.HashFunction key with
  | none => simp [GetNode, hg]
  | some hashVal =>
    cases hbs : binarySearch r.sortedKeyOfNodes (u64ToI64 hashVal) with
    | error e =>
      obtain ⟨rfl, -⟩ := binarySearch_error hbs
      simp [GetNode, hg, hbs]
    | ok index =>
      obtain ⟨node, hnode, hres⟩ := main key hashVal index hg hbs
      rw [hres]
      simp

/-- Claim C3: both invariants hold after every completed `AddNode` and
`RemoveNode` call, successful or failed, and `GetNode` changes neither
structure. -/
theorem ring_invariants_preserved {ν : Type} (getIdentifier : ν → List Nat)
    {r : HashRing ν} (hinv : RingInv r) (n x : ν) (key : List Nat) :
    (InvI1 (AddNode getIdentifier r n).2.1 ∧
      InvI2 (AddNode getIdentifier r n).2.1) ∧
    (InvI1 (RemoveNode getIdentifier r x).2.1 ∧
      InvI2 (RemoveNode getIdentifier r x).2.1) ∧
    (GetNode r key).2.1 = r := by
  have h1 := ringInv_addNode getIdentifier hinv n
  have h2 := ringInv_removeNode getIdentifier hinv x
  exact ⟨⟨h1.1, h1.2.1⟩, ⟨h2.1, h2.2.1⟩, getNode_state_eq r key⟩

/-- Claim C5: a failing `AddNode` or `RemoveNode` (any error kind) leaves
the ring state — both the mapping and the ordered sequence — exactly as
it was before the call. -/
theorem failed_ops_leave_state_unchanged {ν : Type}
    (getIdentifier : ν → List Nat) {r : HashRing ν} (hinv : RingInv r)
    (n x : ν) :
    (∀ e, (AddNode getIdentifier r n).1 = .error e →
      (AddNode getIdentifier r n).2.1 = r) ∧
    (∀ e, (RemoveNode getIdentifier r x).1 = .error e →
      (RemoveNode getIdentifier r x).2.1 = r) :=
  ⟨fun _ he => addNode_error_state getIdentifier r n he,
    fun _ he => removeNode_error_state getIdentifier hinv x he⟩

/-- Claim C6: with zero registered nodes (and a hash function that
consumes the inputs), `GetNode` fails with `NoNodesAvailable` for every
key and `RemoveNode` fails with `NodeNotFound` for every node. -/
theorem empty_ring_errors {ν : Type} {r : HashRing ν}
    (hnodes : r.nodes = []) (hslice : r.sortedKeyOfNodes = [])
    (getIdentifier : ν → List Nat) (key : List Nat) (x : ν) {hk hx : Nat}
    (hgk : generateHash r.config.HashFunction key = some hk)
    (hgx : generateHash r.config.HashFunction (getIdentifier x) = some hx) :
    (GetNode r key).1 = Except.error RingError.noConnectedNodes ∧
    (RemoveNode getIdentifier r x).1 = Except.error RingError.nodeNotFound := by
  constructor
  · simp [GetNode, hgk, binarySearch, hslice]
  · simp [RemoveNode, hgx, hnodes]

/-- Claim C7: `AddNode` fails with the node-already-exists error exactly
when the identifier's hash is already a registered map key; the failed
call leaves the ring unchanged, and after a successful add any node
whose identifier hashes to the same value — including the same node
again — is rejected. -/
theorem addNode_collision_iff {ν : Type} (getIdentifier : ν → List Nat)
    (r : HashRing ν) (n : ν) {h : Nat}
    (hg : generateHash r.config.HashFunction (getIdentifier n) = some h) :
    ((AddNode getIdentifier r n).1 = .error .nodeExists ↔
      h ∈ keysOf r.nodes) ∧
    (∀ e, (AddNode getIdentifier r n).1 = .error e →
      (AddNode getIdentifier r n).2.1 = r) ∧
    ((AddNode getIdentifier r n).1 = .ok () → ∀ n',
      generateHash r.config.HashFunction (getIdentifier n') = some h →
      (AddNode getIdentifier ((AddNode getIdentifier r n).2.1) n').1 =
        .error .nodeExists) := by
  refine ⟨?_, fun e he => addNode_error_state getIdentifier r n he, ?_⟩
  · cases hl : (List.lookup h r.nodes).isSome with
    | true =>
      have hmem := lookup_isSome_iff_mem_keys.mp (by rw [hl])
      have hres : (AddNode getIdentifier r n).1 = .error .nodeExists := by
        simp only [AddNode, hg, hl, if_true]
      exact ⟨fun _ => hmem, fun _ => hres⟩
    | false =>
      have hnotmem : h ∉ keysOf r.nodes := by
        intro hm
        rw [lookup_isSome_iff_mem_keys.mpr hm] at hl
        exact Bool.false_ne_true hl.symm
      have hres : (AddNode getIdentifier r n).1 = .ok () := by
        simp only [AddNode, hg, hl, Bool.false_eq_true, if_false]
      refine ⟨fun he => ?_, fun hm => absurd hm hnotmem⟩
      rw [hres] at he
      exact absurd he (by simp)
  · intro hok n' hg'
    cases hl : (List.lookup h r.nodes).isSome with
    | true =>
      have : (AddNode getIdentifier r n).1 = .error .nodeExists := by
        simp only [AddNode, hg, hl, if_true]
      rw [this] at hok
      exact absurd hok (by simp)
    | false =>
      have hstate : (AddNode getIdentifier r n).2.1 =
          { r with
            nodes := r.nodes ++ [(h, n)]
            sortedKeyOfNodes :=
              (r.sortedKeyOfNodes ++ [u64ToI64 h]).insertionSort (· ≤ ·) } := by
        simp only [AddNode, hg, hl, Bool.false_eq_true, if_false]
      rw [hstate]
      have hmem : h ∈ keysOf (r.nodes ++ [(h, n)]) := by
        simp [keysOf]
      have hl' : (List.lookup h (r.nodes ++ [(h, n)])).isSome = true :=
        lookup_isSome_iff_mem_keys.mpr hmem
      simp only [AddNode, hg', hl', if_true]

/-- Claim C8: `GetNode` mutates nothing, and arbitrarily many repetitions
of the same lookup against the resulting states return the same answer
as the first call. -/
theorem getNode_deterministic {ν : Type} (r : HashRing ν) (key : List Nat) :
    (GetNode r key).2.1 = r ∧
    ∀ m : Nat,
      (GetNode ((fun s => (GetNode s key).2.1)^[m] r) key).1 =
        (GetNode r key).1 := by
  refine ⟨getNode_state_eq r key, fun m => ?_⟩
  rw [Function.iterate_fixed (getNode_state_eq r key) m]

/-- Claim C9: a ring constructed without a hash-function option hashes
every input with 64-bit FNV-1a (byte-wise accumulation); the FNV-1a
constants are anchored by the standard test vector for the byte string
"a". -/
theorem default_hash_is_fnv1a (ν : Type) (opts : List HashRingConfigFn)
    (hopts : ∀ o ∈ opts, ∀ c, (o c).HashFunction = c.HashFunction)
    (bs : List Nat) :
    generateHash (HashRingInit ν opts).config.HashFunction bs =
      some (fnv1aSpec bs) ∧
    fnv1aSpec [97] = 12638187200555641996 := by
  have key : ∀ (os : List HashRingConfigFn) (c : hashRingConfig),
      (∀ o ∈ os, ∀ c', (o c').HashFunction = c'.HashFunction) →
      (os.foldl (fun c opt => opt c) c).HashFunction = c.HashFunction := by
    intro os
    induction os with
    | nil => intro c _; rfl
    | cons o os ih =>
      intro c hpres
      rw [List.foldl_cons,
        ih (o c) (fun o' ho' => hpres o' (List.mem_cons_of_mem _ ho')),
        hpres o (List.mem_cons_self _ _)]
  have hfn : (HashRingInit ν opts).config.HashFunction =
      fun l => some (fnv1a l) := key opts _ hopts
  constructor
  · rw [hfn]
    simp only [generateHash, Option.map_some']
    rw [Nat.mod_eq_of_lt (fnv1a_lt bs), fnv1a_eq_spec]
  · rw [← fnv1a_eq_spec]
    decide

/-- Rings differing only in the verbose-log flag. -/
def setLogs {ν : Type} (r : HashRing ν) (b : Bool) : HashRing ν :=
  { r with config := { r.config with EnableLogs := b } }

theorem addNode_setLogs {ν : Type} (getIdentifier : ν → List Nat)
    (r : HashRing ν) (b : Bool) (n : ν) :
    (AddNode getIdentifier (setLogs r b) n).1 =
      (AddNode getIdentifier r n).1 ∧
    (AddNode getIdentifier (setLogs r b) n).2.1 =
      setLogs (AddNode getIdentifier r n).2.1 b := by
  cases hg : generateHash r.config.HashFunction (getIdentifier n) with
  | none => constructor <;> simp [AddNode, setLogs, hg]
  | some hashVal =>
    cases hl : (List.lookup hashVal r.nodes).isSome with
    | true => constructor <;> simp [AddNode, setLogs, hg, hl]
    | false => constructor <;> simp [AddNode, setLogs, hg, hl]

theorem getNode_setLogs {ν : Type} (r : HashRing ν) (b : Bool)
    (key : List Nat) :
    (GetNode (setLogs r b) key).1 = (GetNode r key).1 ∧
    (GetNode (setLogs r b) key).2.1 = setLogs (GetNode r key).2.1 b := by
  cases hg : generateHash r.config.HashFunction key with
  | none => constructor <;> simp [GetNode, setLogs, hg]
  | some hashVal =>
    cases hbs : binarySearch r.sortedKeyOfNodes (u64ToI64 hashVal) with
    | error e => constructor <;> simp [GetNode, setLogs, hg, hbs]
    | ok index =>
      cases hlk : List.lookup (i64ToU64 (r.sortedKeyOfNodes.getD index 0))
          r.nodes with
      | none =>
        constructor <;> simp only [GetNode, setLogs, hg, hbs, hlk]
      | some node =>
        constructor <;> simp only [GetNode, setLogs, hg, hbs, hlk]

theorem removeNode_setLogs {ν : Type} (getIdentifier : ν → List Nat)
    (r : HashRing ν) (b : Bool) (x : ν) :
    (RemoveNode getIdentifier (setLogs r b) x).1 =
      (RemoveNode getIdentifier r x).1 ∧
    (RemoveNode getIdentifier (setLogs r b) x).2.1 =
      setLogs (RemoveNode getIdentifier r x).2.1 b := by
  cases hg : generateHash r.config.HashFunction (getIdentifier x) with
  | none => constructor <;> simp [RemoveNode, setLogs, hg]
  | some hashVal =>
    cases hl : (List.lookup hashVal r.nodes).isSome with
    | false => constructor <;> simp [RemoveNode, setLogs, hg, hl]
    | true =>
      cases hbs : binarySearch r.sortedKeyOfNodes (u64ToI64 hashVal) with
      | error e =>
        constructor <;> simp only [RemoveNode, setLogs, hg, hl, if_true, hbs]
      | ok index =>
        constructor <;> simp only [RemoveNode, setLogs, hg, hl, if_true, hbs]

/-- Claim C10: for every ring state and operation input, the returned
value and the resulting ring state (up to the stored flag itself) are
the same whether verbose logging is enabled or disabled. -/
theorem logging_never_affects_behavior {ν : Type}
    (getIdentifier : ν → List Nat) (r : HashRing ν) (b : Bool)
    (key : List Nat) (n x : ν) :
    (AddNode getIdentifier (setLogs r b) n).1 =
      (AddNode getIdentifier r n).1 ∧
    (AddNode getIdentifier (setLogs r b) n).2.1 =
      setLogs (AddNode getIdentifier r n).2.1 b ∧
    (GetNode (setLogs r b) key).1 = (GetNode r key).1 ∧
    (GetNode (setLogs r b) key).2.1 = setLogs (GetNode r key).2.1 b ∧
    (RemoveNode getIdentifier (setLogs r b) x).1 =
      (RemoveNode getIdentifier r x).1 ∧
    (RemoveNode getIdentifier (setLogs r b) x).2.1 =
      setLogs (RemoveNode getIdentifier r x).2.1 b :=
  ⟨(addNode_setLogs getIdentifier r b n).1,
    (addNode_setLogs getIdentifier r b n).2,
    (getNode_setLogs r b key).1, (getNode_setLogs r b key).2,
    (removeNode_setLogs getIdentifier r b x).1,
    (removeNode_setLogs getIdentifier r b x).2⟩

/-- Claim C4: removing a registered node from a ring with at least two
nodes changes the result of `GetNode` only for keys whose pre-removal
successor was the removed node's hash slot; such keys now resolve to
that slot's former successor (the clockwise successor of the removed
hash among the remaining nodes), and every other key resolves to the
identical node before and after. -/
theorem remove_minimal_disruption {ν : Type} (getIdentifier : ν → List Nat)
    {r r' : HashRing ν} {x : ν} {lg : List LogEvent}
    (hinv : RingInv r)
    (hrem : RemoveNode getIdentifier r x = (.ok (), r', lg))
    (hN : 2 ≤ r.sortedKeyOfNodes.length)
    {key : List Nat} {h : Nat}
    (hg : generateHash r.config.HashFunction key = some h) :
    ∃ hx t,
      generateHash r.config.HashFunction (getIdentifier x) = some hx ∧
      SuccRel (keysOf r.nodes) h t ∧
      (t ≠ hx → (GetNode r' key).1 = (GetNode r key).1) ∧
      (t = hx → ∃ xnode t' snode,
        List.lookup hx r.nodes = some xnode ∧
        (GetNode r key).1 = Except.ok xnode ∧
        SuccRel (keysOf r'.nodes) hx t' ∧
        List.lookup t' r'.nodes = some snode ∧
        (GetNode r' key).1 = Except.ok snode) := by
  obtain ⟨hx, hgx, hmemx, hcfg, hnodes, hslice⟩ :=
    removeNode_ok_spec getIdentifier hinv hrem
  have hinv' : RingInv r' := by
    have hpres := ringInv_removeNode getIdentifier hinv x
    rw [hrem] at hpres
    exact hpres
  have hcastx : u64ToI64 hx ∈ r.sortedKeyOfNodes := hinv.1.1 hx hmemx
  have hne : r.sortedKeyOfNodes ≠ [] := by
    intro h0
    rw [h0] at hN
    simp at hN
  have hne' : r'.sortedKeyOfNodes ≠ [] := by
    intro h0
    have hlen := List.length_erase_add_one hcastx
    rw [← hslice, h0] at hlen
    simp at hlen
    omega
  have hmemiff : ∀ y, y ∈ keysOf r'.nodes ↔ y ∈ keysOf r.nodes ∧ y ≠ hx := by
    intro y
    rw [hnodes]
    exact mem_keys_filter
  have hkeysne : keysOf r'.nodes ≠ [] := by
    obtain ⟨v, hv⟩ := List.exists_mem_of_ne_nil _ hne'
    intro h0
    have := hinv'.1.2 v hv
    rw [h0] at this
    simp at this
  obtain ⟨t, node, hsucc, hlook, hres⟩ := getNode_ok hinv hne hg
  have hg' : generateHash r'.config.HashFunction key = some h := by
    rw [hcfg]; exact hg
  obtain ⟨t2, node2, hsucc2, hlook2, hres2⟩ := getNode_ok hinv' hne' hg'
  refine ⟨hx, t, hgx, hsucc, ?_, ?_⟩
  · intro htne
    have hkeep : SuccRel (keysOf r'.nodes) h t :=
      succRel_erase_ne hmemiff hsucc htne
    have ht2 : t2 = t := succRel_unique hsucc2 hkeep
    rw [ht2, hnodes, lookup_filter_ne htne, hlook] at hlook2
    rw [hres2, hres]
    exact congrArg Except.ok (Option.some.inj hlook2).symm
  · intro hteq
    subst hteq
    obtain ⟨u, hu⟩ := succRel_exists hkeysne t
    have hchain : SuccRel (keysOf r'.nodes) h u :=
      succRel_chain hmemiff hsucc hu
    have ht2 : t2 = u := succRel_unique hsucc2 hchain
    exact ⟨node, t2, node2, hlook, hres, ht2 ▸ hu, hlook2, hres2⟩

/-! ## Concrete witness states -/

/-- A small concrete configuration whose hash function reads the first
byte of the input. -/
def wConfig : hashRingConfig :=
  { HashFunction := fun bs => some (bs.headD 0), EnableLogs := false }

/-- A concrete two-node ring (nodes are their own identifiers). -/
def wRing : HashRing (List Nat) :=
  { config := wConfig
    nodes := [(3, [3]), (7, [7])]
    sortedKeyOfNodes := [3, 7] }

/-- The ring obtained from `wRing` by removing the node `[3]`. -/
def wRingLess : HashRing (List Nat) :=
  { config := wConfig
    nodes := [(7, [7])]
    sortedKeyOfNodes := [7] }

/-- A concrete empty ring. -/
def wEmpty : HashRing (List Nat) :=
  { config := wConfig
    nodes := []
    sortedKeyOfNodes := [] }

theorem wRing_inv : RingInv wRing := by
  refine ⟨⟨?_, ?_⟩, ⟨?_, ?_⟩, ?_, ?_⟩ <;> decide

theorem getNode_clockwise_successor_witness :
    (RingInv wRing ∧ wRing.sortedKeyOfNodes ≠ [] ∧
      generateHash wRing.config.HashFunction [5] = some 5) ∧
    ∃ t node,
      t ∈ keysOf wRing.nodes ∧
      ((5 ≤ t ∧ ∀ x ∈ keysOf wRing.nodes, 5 ≤ x → t ≤ x) ∨
        ((∀ x ∈ keysOf wRing.nodes, x < 5) ∧ ∀ x ∈ keysOf wRing.nodes, t ≤ x)) ∧
      List.lookup t wRing.nodes = some node ∧
      (GetNode wRing [5]).1 = Except.ok node :=
  ⟨⟨wRing_inv, by decide, by decide⟩,
    getNode_clockwise_successor wRing_inv (by decide)
      (by decide : generateHash wRing.config.HashFunction [5] = some 5)⟩

theorem getNode_lookup_never_misses_witness :
    InvI1 wRing ∧
    ((∀ key, (GetNode wRing key).1 ≠ Except.error RingError.nodeNotFound) ∧
      (∀ key hashVal index,
        generateHash wRing.config.HashFunction key = some hashVal →
        binarySearch wRing.sortedKeyOfNodes (u64ToI64 hashVal) = .ok index →
        ∃ node,
          List.lookup (i64ToU64 (wRing.sortedKeyOfNodes.getD index 0))
            wRing.nodes = some node ∧
          (GetNode wRing key).1 = Except.ok node)) :=
  ⟨wRing_inv.1, getNode_lookup_never_misses wRing_inv.1⟩

theorem ring_invariants_preserved_witness :
    RingInv wRing ∧
    ((InvI1 (AddNode (fun bs => bs) wRing [5]).2.1 ∧
      InvI2 (AddNode (fun bs => bs) wRing [5]).2.1) ∧
    (InvI1 (RemoveNode (fun bs => bs) wRing [3]).2.1 ∧
      InvI2 (RemoveNode (fun bs => bs) wRing [3]).2.1) ∧
    (GetNode wRing [4]).2.1 = wRing) :=
  ⟨wRing_inv, ring_invariants_preserved (fun bs => bs) wRing_inv [5] [3] [4]⟩

theorem remove_minimal_disruption_witness :
    (RingInv wRing ∧
      RemoveNode (fun bs => bs) wRing [3] = (Except.ok (), wRingLess, []) ∧
      2 ≤ wRing.sortedKeyOfNodes.length ∧
      generateHash wRing.config.HashFunction [5] = some 5) ∧
    ∃ hx t,
      generateHash wRing.config.HashFunction [3] = some hx ∧
      SuccRel (keysOf wRing.nodes) 5 t ∧
      (t ≠ hx → (GetNode wRingLess [5]).1 = (GetNode wRing [5]).1) ∧
      (t = hx → ∃ xnode t' snode,
        List.lookup hx wRing.nodes = some xnode ∧
        (GetNode wRing [5]).1 = Except.ok xnode ∧
        SuccRel (keysOf wRingLess.nodes) hx t' ∧
        List.lookup t' wRingLess.nodes = some snode ∧
        (GetNode wRingLess [5]).1 = Except.ok snode) :=
  ⟨⟨wRing_inv, by rfl, by decide, by decide⟩,
    remove_minimal_disruption (fun bs => bs) wRing_inv
      (by rfl :
        RemoveNode (fun bs => bs) wRing [3] = (Except.ok (), wRingLess, []))
      (by decide)
      (by decide : generateHash wRing.config.HashFunction [5] = some 5)⟩

theorem failed_ops_leave_state_unchanged_witness :
    RingInv wRing ∧
    ((∀ e, (AddNode (fun bs => bs) wRing [3]).1 = .error e →
      (AddNode (fun bs => bs) wRing [3]).2.1 = wRing) ∧
    (∀ e, (RemoveNode (fun bs => bs) wRing [9]).1 = .error e →
      (RemoveNode (fun bs => bs) wRing [9]).2.1 = wRing)) :=
  ⟨wRing_inv, failed_ops_leave_state_unchanged (fun bs => bs) wRing_inv [3] [9]⟩

theorem empty_ring_errors_witness :
    (wEmpty.nodes = [] ∧ wEmpty.sortedKeyOfNodes = [] ∧
      generateHash wEmpty.config.HashFunction [5] = some 5 ∧
      generateHash wEmpty.config.HashFunction [3] = some 3) ∧
    ((GetNode wEmpty [5]).1 = Except.error RingError.noConnectedNodes ∧
      (RemoveNode (fun bs => bs) wEmpty [3]).1 =
        Except.error RingError.nodeNotFound) :=
  ⟨⟨rfl, rfl, by decide, by decide⟩,
    empty_ring_errors rfl rfl (fun bs => bs) [5] [3]
      (by decide : generateHash wEmpty.config.HashFunction [5] = some 5)
      (by decide : generateHash wEmpty.config.HashFunction [3] = some 3)⟩

theorem addNode_collision_iff_witness :
    generateHash wRing.config.HashFunction [3] = some 3 ∧
    (((AddNode (fun bs => bs) wRing [3]).1 = .error .nodeExists ↔
      3 ∈ keysOf wRing.nodes) ∧
    (∀ e, (AddNode (fun bs => bs) wRing [3]).1 = .error e →
      (AddNode (fun bs => bs) wRing [3]).2.1 = wRing) ∧
    ((AddNode (fun bs => bs) wRing [3]).1 = .ok () → ∀ n',
      generateHash wRing.config.HashFunction ((fun bs => bs) n') = some 3 →
      (AddNode (fun bs => bs) ((AddNode (fun bs => bs) wRing [3]).2.1) n').1 =
        .error .nodeExists)) :=
  ⟨by decide,
    addNode_collision_iff (fun bs => bs) wRing [3]
      (by decide : generateHash wRing.config.HashFunction [3] = some 3)⟩

theorem default_hash_is_fnv1a_witness :
    (∀ o ∈ [EnableVerboseLogs true], ∀ c,
      (o c).HashFunction = c.HashFunction) ∧
    (generateHash
        (HashRingInit (List Nat) [EnableVerboseLogs true]).config.HashFunction
        [97] = some (fnv1aSpec [97]) ∧
      fnv1aSpec [97] = 12638187200555641996) := by
  have hopts : ∀ o ∈ [EnableVerboseLogs true], ∀ c,
      (o c).HashFunction = c.HashFunction := by
    intro o ho c
    rw [List.mem_singleton] at ho
    subst ho
    rfl
  exact ⟨hopts,
    default_hash_is_fnv1a (List Nat) [EnableVerboseLogs true] hopts [97]⟩
